import Mathlib

/-!
Shallow embedding of the pagination / overflow engine of the MediaSphere
document editor (renderer source, class DocumentEditor).

Modelling conventions, fixed once for the whole file:

* A content region is an ordered list of `Block` values.  A `Block` is a
  top-level child node of an editable region, carrying its rendered height
  (`node.offsetHeight` and `editor.scrollHeight` are integer pixel counts in
  the DOM, so heights are modelled as integers; the `parseFloat` page metrics
  are modelled at the same granularity), its serialized markup
  (`node.outerHTML`), and its visible text (its contribution to
  `editor.innerText`).
* `editor.innerHTML` of a region is the concatenation of the markups of its
  blocks, and `editor.innerText` the concatenation of their texts.  A string
  test `s.trim() === ''` is therefore modelled blockwise: the concatenation
  trims to the empty string exactly when every piece is whitespace-only.
* `editor.scrollHeight` (full rendered content height) is modelled as the sum
  of the block heights, the same measure the off-screen clone in
  `extractOverflowContent` accumulates.
* Installing an overflow markup string into a region
  (`editor.innerHTML = overflowContent`) re-parses the serialized blocks; in
  the model the overflow is kept as the corresponding block list, so
  installation is list assignment and prepending is list append.
* DOM focus is modelled as the index of the selected region
  (`this.selectedEditor`); caret placement inside a region is a browser
  detail with no counterpart in the source and is not modelled.
* `this.typingTimer` is the single debounce slot of the class: it holds the
  latest scheduled overflow check as a pair (target region index, delay in
  milliseconds); `clearTimeout` followed by `setTimeout` is re-assignment of
  the slot.
-/

namespace DocEditor

/-- A top-level block node of a content region (paragraph, table, image,
rule, ...) together with its rendered height, serialized markup and visible
text. -/
structure Block where
  height : ℤ
  markup : String
  text : String
  deriving DecidableEq

/-- Models the test `s.trim() === ''`: the string trims to the empty string
exactly when every character is whitespace. -/
def strWhitespaceOnly (s : String) : Bool := s.data.all Char.isWhitespace

/-- `editor.innerHTML` of a region: concatenation of the serialized markup of
its blocks, in order (`overflowHTML += tempNodes[i].outerHTML`). -/
def serializeBlocks : List Block → String
  | [] => ""
  | b :: bs => b.markup ++ serializeBlocks bs

/-- Models `(serializeBlocks bs).trim() === ''` blockwise: the concatenated
markup is whitespace-only iff every block markup is whitespace-only. -/
def htmlAllWhitespace (bs : List Block) : Bool :=
  bs.all fun b => strWhitespaceOnly b.markup

/-- Models `editor.innerText.trim() === ''` blockwise. -/
def textAllWhitespace (bs : List Block) : Bool :=
  bs.all fun b => strWhitespaceOnly b.text

/-- `editor.scrollHeight` of a region: the full rendered content height, the
sum of the block heights. -/
def sumHeights : List Block → ℤ
  | [] => 0
  | b :: bs => b.height + sumHeights bs

/-- The placeholder break marker `<br>` the source installs into a region it
has emptied (`editor.innerHTML = '<br>'`), kept so the region stays
focusable.  A lone break renders no text. -/
def placeholderBlock : Block := ⟨0, "<br>", ""⟩

/-- The split-point loop of `extractOverflowContent`: walking the cloned
nodes in order with running total `currentHeight`, the split index is the
first `i` with `currentHeight + nodeHeight > maxHeight` (`splitIndex = i;
break`), `none` when the loop finishes without a hit (`splitIndex` stays
`-1`). -/
def findSplitAux (maxHeight : ℤ) (currentHeight : ℤ) : List Block → Option Nat
  | [] => none
  | b :: bs =>
    if currentHeight + b.height > maxHeight then some 0
    else (findSplitAux maxHeight (currentHeight + b.height) bs).map (· + 1)

/-- Split index of a block sequence against a capacity, starting the running
total at `0`. -/
def findSplitIndex (bs : List Block) (maxHeight : ℤ) : Option Nat :=
  findSplitAux maxHeight 0 bs

/-- `extractOverflowContent(editor, maxHeight)` on the block level.  Returns
(blocks left in the editor, blocks moved to the overflow).  When a split
index `k` is found, nodes from `k` on are collected into the overflow and
removed from the editor; if the editor is then empty
(`editor.innerHTML.trim() === ''`) the placeholder `<br>` is installed.
When no split index is found the editor is untouched and the overflow is
empty. -/
def extractOverflowContent (blocks : List Block) (maxHeight : ℤ) :
    List Block × List Block :=
  match findSplitIndex blocks maxHeight with
  | none => (blocks, [])
  | some k =>
    let retained := blocks.take k
    (if htmlAllWhitespace retained then [placeholderBlock] else retained,
     blocks.drop k)

/-- A page element: its editable content region (`page.querySelector('.editor')`,
`none` when the page has no `.editor` descendant) and the text of its
`.page-number` element.  Header and footer regions take no part in the
pagination logic and are omitted. -/
structure Page where
  editor : Option (List Block)
  label : Nat
  deriving DecidableEq

/-- The mutable instance state of class `DocumentEditor` that the pagination
logic reads and writes.  `pages` is the ordered list of `.page` elements,
`pageHeight` the cached usable height, `typingTimer` the debounce slot
(target region index, delay in ms), `selectedEditor` the focused region
index. -/
structure EditorState where
  pages : List Page
  documentModified : Bool
  currentFilePath : Option String
  currentPage : Nat
  totalPages : Nat
  selectedEditor : Option Nat
  pageHeight : ℤ
  typingTimer : Option (Nat × Nat)
  deriving DecidableEq

/-- The content region of the `i`-th page, when both the page and its
`.editor` element exist. -/
def getRegion (st : EditorState) (i : Nat) : Option (List Block) :=
  (st.pages.get? i).bind Page.editor

/-- Replace the content of the `i`-th page region
(`editor.innerHTML = ...`). -/
def modifyEditorAt : List Page → Nat → List Block → List Page
  | [], _, _ => []
  | p :: ps, 0, bs => { p with editor := some bs } :: ps
  | p :: ps, n + 1, bs => p :: modifyEditorAt ps n bs

/-- State after writing block list `bs` into region `i`. -/
def setRegion (st : EditorState) (i : Nat) (bs : List Block) : EditorState :=
  { st with pages := modifyEditorAt st.pages i bs }

/-- `updatePageNumbers`: walk the pages in order and write `index + 1` into
each `.page-number` element. -/
def renumberFrom : Nat → List Page → List Page
  | _, [] => []
  | n, p :: ps => { p with label := n } :: renumberFrom (n + 1) ps

/-- `updateUI`: `updatePageNumbers` renumbers the labels to `1..N` and sets
`totalPages` to the page count; `updateStatusBar` and `updateWordCount` only
write display strings and change no modelled state. -/
def updateUIFn (st : EditorState) : EditorState :=
  let pages := renumberFrom 1 st.pages
  { st with pages := pages, totalPages := pages.length }

/-- Cloned page template with its `[contenteditable]` regions cleared
(`el.innerHTML = ''`): the structure is kept, the content is the empty
list — no placeholder is installed here. -/
def clearRegions (p : Page) : Page :=
  { p with editor := p.editor.map fun _ => ([] : List Block) }

/-- `addPage`: clone the first `.page` element, clear its editable regions,
append it to the page container, focus its editor when it has one (the focus
listener of `setupPageEvents` then sets `currentPage` to the index of the new
page plus one), and run `updateUI`.  With no page to clone the source would
throw on `cloneNode`; the initial document always has one, and the model
returns the state unchanged in that unreachable case. -/
def addPage (st : EditorState) : EditorState :=
  match st.pages with
  | [] => st
  | first :: rest =>
    let newPage := clearRegions first
    let pages := (first :: rest) ++ [newPage]
    let st1 := { st with pages := pages }
    let st2 :=
      if newPage.editor.isSome then
        { st1 with selectedEditor := some (pages.length - 1),
                   currentPage := pages.length }
      else st1
    updateUIFn st2

/-- One run of `checkPageOverflow` on region `i`, with explicit fuel for the
recursive re-checks (the source recursion does not terminate on a block whose
height alone keeps exceeding the capacity of every fresh page, so the model
makes the recursion depth explicit; every theorem quantifies over the fuel).
Branches, in source order: missing editor returns; zero `scrollHeight` with
non-empty `innerText` re-schedules the check after 100ms and returns;
`scrollHeight > pageHeight + 5` runs the splitter and, when the overflow
markup is non-blank, either appends a new page (last page, or next-page
editor lookup fails) installing the overflow there, or prepends the overflow
to the next page region; each such branch re-checks the destination region;
every non-returning path ends in `updateUI`. -/
def checkPageOverflow : Nat → EditorState → Nat → EditorState
  | 0, st, _ => st
  | fuel + 1, st, i =>
    match getRegion st i with
    | none => st
    | some blocks =>
      if sumHeights blocks = 0 ∧ textAllWhitespace blocks = false then
        { st with typingTimer := some (i, 100) }
      else if sumHeights blocks > st.pageHeight + 5 then
        let res := extractOverflowContent blocks st.pageHeight
        let st1 := setRegion st i res.1
        if htmlAllWhitespace res.2 = false then
          if i = st1.pages.length - 1 then
            let st2 := addPage st1
            match getRegion st2 (st2.pages.length - 1) with
            | some _ =>
              updateUIFn (checkPageOverflow fuel
                (setRegion st2 (st2.pages.length - 1) res.2)
                (st2.pages.length - 1))
            | none => updateUIFn st2
          else
            match getRegion st1 (i + 1) with
            | some nextBlocks =>
              updateUIFn (checkPageOverflow fuel
                (setRegion st1 (i + 1) (res.2 ++ nextBlocks)) (i + 1))
            | none =>
              let st2 := addPage st1
              match getRegion st2 (st2.pages.length - 1) with
              | some _ =>
                updateUIFn (checkPageOverflow fuel
                  (setRegion st2 (st2.pages.length - 1) res.2)
                  (st2.pages.length - 1))
              | none => updateUIFn st2
        else updateUIFn st1
      else updateUIFn st

/-- Character-level core of the Backspace emptiness check
`innerHTML.trim().replace(/<br\s*\/?>/gi, '').replace(/&nbsp;/gi, '').trim()
=== ''`: after deleting break-tag and non-breaking-space entities, only
whitespace may remain.  The regex also accepts further spacing and case
variants of the break tag; the placeholder the source itself installs is
exactly `<br>`, so the common spellings suffice. -/
def blockBackspaceEmptyAux : List Char → Bool
  | [] => true
  | '<' :: 'b' :: 'r' :: '>' :: rest => blockBackspaceEmptyAux rest
  | '<' :: 'b' :: 'r' :: '/' :: '>' :: rest => blockBackspaceEmptyAux rest
  | '<' :: 'b' :: 'r' :: ' ' :: '/' :: '>' :: rest => blockBackspaceEmptyAux rest
  | '&' :: 'n' :: 'b' :: 's' :: 'p' :: ';' :: rest => blockBackspaceEmptyAux rest
  | c :: rest => c.isWhitespace && blockBackspaceEmptyAux rest

/-- The Backspace emptiness check applied to the markup of a single block;
the region is effectively empty when every block passes it. -/
def blockBackspaceEmpty (b : Block) : Bool :=
  blockBackspaceEmptyAux b.markup.data

/-- The Backspace keydown handler of `setupEditorEvents`, fired with the
active editor being region `i`: when the region content is effectively empty
and the page is not the first, the page is removed, the previous page editor
(when present) is focused (the focus listener sets `currentPage` to the index
of that page plus one, which is `i` after the removal), pages are renumbered,
`totalPages` refreshed and `currentPage` clamped. -/
def backspaceKeydown (st : EditorState) (i : Nat) : EditorState :=
  match getRegion st i with
  | none => st
  | some blocks =>
    if blocks.all blockBackspaceEmpty then
      if 0 < i then
        let pages := st.pages.eraseIdx i
        let st1 :=
          match (st.pages.get? (i - 1)).bind Page.editor with
          | some _ =>
            { st with pages := pages, selectedEditor := some (i - 1),
                      currentPage := i }
          | none => { st with pages := pages }
        let st2 := updateUIFn st1
        { st2 with totalPages := st2.pages.length,
                   currentPage := min st2.currentPage st2.pages.length }
      else st
    else st

/-- `resetDocument`: drop every page after the first, clear the editable
regions of the first page (`el.innerHTML = ''`, no placeholder), reset the
session fields, focus the first editor when it exists, and run `updateUI`.
With no page at all the source logs an error and returns. -/
def resetDocument (st : EditorState) : EditorState :=
  match st.pages with
  | [] => st
  | first :: _ =>
    let first1 := clearRegions first
    let st1 := { st with pages := [first1], currentPage := 1, totalPages := 1,
                         currentFilePath := none, documentModified := false }
    let st2 :=
      if first1.editor.isSome then { st1 with selectedEditor := some 0 }
      else st1
    updateUIFn st2

/-- `handleEditorInput` on region `i`: mark the document modified, update the
word count display, and re-arm the debounce slot with a 500ms overflow check
for this region (`clearTimeout(this.typingTimer); this.typingTimer =
setTimeout(..., 500)`). -/
def handleEditorInput (st : EditorState) (i : Nat) : EditorState :=
  { st with documentModified := true, typingTimer := some (i, 500) }

/-- The computed-style inputs `calculatePageDimensions` reads from the first
page and its editor. -/
structure PageGeometry where
  pageHeight : ℤ
  headerHeight : ℤ
  footerHeight : ℤ
  pagePaddingTop : ℤ
  pagePaddingBottom : ℤ
  editorPaddingTop : ℤ
  editorPaddingBottom : ℤ
  editorMarginTop : ℤ
  editorMarginBottom : ℤ
  deriving DecidableEq

/-- The usable-height arithmetic of `calculatePageDimensions`. -/
def computeUsableHeight (g : PageGeometry) : ℤ :=
  g.pageHeight - g.headerHeight - g.footerHeight - g.pagePaddingTop -
    g.pagePaddingBottom - g.editorPaddingTop - g.editorPaddingBottom -
    g.editorMarginTop - g.editorMarginBottom

/-- `calculatePageDimensions`: with no first page nothing happens; otherwise
the usable height is computed and cached, falling back to the fixed default
1120 when the computed value is non-positive.  The returned flag records
whether the fallback diagnostic (`console.warn`) was emitted.  The function
is total: it never throws. -/
def calculatePageDimensions (st : EditorState) (g : Option PageGeometry) :
    EditorState × Bool :=
  match g with
  | none => (st, false)
  | some g =>
    let h := computeUsableHeight g
    if h ≤ 0 then ({ st with pageHeight := 1120 }, true)
    else ({ st with pageHeight := h }, false)

/-- The debounce slot `this.typingTimer` with task identities: `pending`
holds the timer id and target region of the latest `setTimeout` not yet
cleared, `nextId` the next timer id the environment will hand out.  There is
one slot for the whole editor instance. -/
structure SchedState where
  pending : Option (Nat × Nat)
  nextId : Nat
  deriving DecidableEq

/-- Scheduling a debounced overflow check for region `r`
(`clearTimeout(this.typingTimer); this.typingTimer = setTimeout(() =>
this.checkPageOverflow(...), ...)` in `handleEditorInput`, in the mutation
observer of `setupAutoPageBreak`, and in the zero-height retry): the pending
task, whatever its region, is cleared and replaced by a fresh task for
`r`. -/
def scheduleCheck (s : SchedState) (r : Nat) : SchedState :=
  ⟨some (s.nextId, r), s.nextId + 1⟩

/-- The timer state after a trace of schedule events (the `n`-th event
schedules a check for region `trace[n]` and gets timer id `n`). -/
def runSchedule (trace : List Nat) : SchedState :=
  trace.foldl scheduleCheck ⟨none, 0⟩

/-- A scheduled task may still fire only while it sits in the slot: cleared
timers never run. -/
def mayFire (s : SchedState) (id : Nat) : Bool :=
  match s.pending with
  | some (pid, _) => pid == id
  | none => false

/-- The concatenation of all page region contents in page order — the block
sequence of `getAllContent()`, which concatenates `editor.innerHTML` over the
pages (a page whose editor is missing contributes nothing). -/
def flattenPages : List Page → List Block
  | [] => []
  | p :: ps => p.editor.getD [] ++ flattenPages ps

/-- Erase placeholder break markers: the conservation statement of the spec
compares content up to insertion and removal of the `<br>` placeholder. -/
def stripBreaks (bs : List Block) : List Block :=
  bs.filter fun b => b.markup != "<br>"

/-- A well-formed page list: every page has an `.editor` region (every page
is cloned from the template, which has one) and every block has visible
markup (the `outerHTML` of an element node is never whitespace-only; the
placeholder `<br>` is itself visible). -/
def WFpages (ps : List Page) : Prop :=
  ∀ p ∈ ps, p.editor.isSome = true ∧
    ∀ b ∈ p.editor.getD [], strWhitespaceOnly b.markup = false

/-- Well-formed editor state. -/
def WFdoc (st : EditorState) : Prop := WFpages st.pages

/-- Page labels read `1..N` in structural order and `totalPages` matches the
page count. -/
def pagesRenumbered (st : EditorState) : Prop :=
  st.pages.map Page.label = List.range' 1 st.pages.length ∧
    st.totalPages = st.pages.length

/-- Concrete fixture blocks for the scenario checks. -/
def blkA : Block := ⟨300, "<p>one</p>", "one"⟩

def blkB : Block := ⟨400, "<p>two</p>", "two"⟩

def blkC : Block := ⟨500, "<p>three</p>", "three"⟩

def blkX : Block := ⟨600, "<p>x</p>", "x"⟩

def blkY : Block := ⟨600, "<p>y</p>", "y"⟩

def blkBig : Block := ⟨1500, "<img>", ""⟩

def blkZero : Block := ⟨0, "<p>pending</p>", "pending"⟩

/-- A one-page document with the given region content, capacity 1000. -/
def onePageDoc (bs : List Block) : EditorState :=
  ⟨[⟨some bs, 1⟩], false, none, 1, 1, some 0, 1000, none⟩

/-- A two-page document, second page focused, capacity 1000. -/
def twoPageDoc (bs1 bs2 : List Block) : EditorState :=
  ⟨[⟨some bs1, 1⟩, ⟨some bs2, 2⟩], false, none, 2, 2, some 1, 1000, none⟩

end DocEditor

namespace DocEditor

theorem renumberFrom_length (n : Nat) (ps : List Page) :
    (renumberFrom n ps).length = ps.length := by
  induction ps generalizing n with
  | nil => rfl
  | cons p ps ih => simp [renumberFrom, ih]

theorem renumberFrom_map_editor (n : Nat) (ps : List Page) :
    (renumberFrom n ps).map Page.editor = ps.map Page.editor := by
  induction ps generalizing n with
  | nil => rfl
  | cons p ps ih => simp [renumberFrom, ih]

theorem renumberFrom_map_label (n : Nat) (ps : List Page) :
    (renumberFrom n ps).map Page.label = List.range' n ps.length := by
  induction ps generalizing n with
  | nil => rfl
  | cons p ps ih => simp [renumberFrom, ih, List.range'_succ]

theorem renumberFrom_get?_editor (n : Nat) (ps : List Page) (i : Nat) :
    ((renumberFrom n ps).get? i).bind Page.editor = (ps.get? i).bind Page.editor := by
  induction ps generalizing n i with
  | nil => rfl
  | cons p ps ih =>
    cases i with
    | zero => rfl
    | succ m => simpa [renumberFrom] using ih (n + 1) m

theorem flattenPages_append (xs ys : List Page) :
    flattenPages (xs ++ ys) = flattenPages xs ++ flattenPages ys := by
  induction xs with
  | nil => rfl
  | cons p ps ih => simp [flattenPages, ih]

theorem flattenPages_renumber (n : Nat) (ps : List Page) :
    flattenPages (renumberFrom n ps) = flattenPages ps := by
  induction ps generalizing n with
  | nil => rfl
  | cons p ps ih => simp [renumberFrom, flattenPages, ih]

theorem modifyEditorAt_length (ps : List Page) (i : Nat) (bs : List Block) :
    (modifyEditorAt ps i bs).length = ps.length := by
  induction ps generalizing i with
  | nil => rfl
  | cons p ps ih => cases i <;> simp [modifyEditorAt, ih]

theorem get?_modifyEditorAt_self (ps : List Page) (i : Nat) (bs : List Block)
    (h : i < ps.length) :
    ((modifyEditorAt ps i bs).get? i).bind Page.editor = some bs := by
  induction ps generalizing i with
  | nil => simp at h
  | cons p ps ih =>
    cases i with
    | zero => rfl
    | succ m =>
      simp only [modifyEditorAt, List.get?_cons_succ]
      exact ih m (by simpa using Nat.lt_of_succ_lt_succ h)

theorem get?_modifyEditorAt_ne (ps : List Page) (i j : Nat) (bs : List Block)
    (h : j ≠ i) : (modifyEditorAt ps i bs).get? j = ps.get? j := by
  induction ps generalizing i j with
  | nil => rfl
  | cons p ps ih =>
    cases i with
    | zero =>
      cases j with
      | zero => exact absurd rfl h
      | succ m => rfl
    | succ n =>
      cases j with
      | zero => rfl
      | succ m =>
        simp only [modifyEditorAt, List.get?_cons_succ]
        exact ih n m (fun hc => h (by rw [hc]))

theorem take_modifyEditorAt (ps : List Page) (i : Nat) (bs : List Block) :
    (modifyEditorAt ps i bs).take i = ps.take i := by
  induction ps generalizing i with
  | nil => cases i <;> rfl
  | cons p ps ih =>
    cases i with
    | zero => rfl
    | succ m => simp [modifyEditorAt, ih]

theorem drop_modifyEditorAt_gt (ps : List Page) (i j : Nat) (bs : List Block)
    (h : i < j) : (modifyEditorAt ps i bs).drop j = ps.drop j := by
  induction ps generalizing i j with
  | nil => rfl
  | cons p ps ih =>
    cases i with
    | zero =>
      cases j with
      | zero => exact absurd h (by omega)
      | succ m => rfl
    | succ n =>
      cases j with
      | zero => exact absurd h (by omega)
      | succ m =>
        simp only [modifyEditorAt, List.drop_succ_cons]
        exact ih n m (by omega)

theorem drop_eq_cons_of_get? (ps : List Page) (j : Nat) (p : Page)
    (h : ps.get? j = some p) : ps.drop j = p :: ps.drop (j + 1) := by
  induction ps generalizing j with
  | nil => simp at h
  | cons q qs ih =>
    cases j with
    | zero => simp at h; simp [h]
    | succ m =>
      simp only [List.get?_cons_succ] at h
      simpa using ih m h

theorem flattenPages_decomp (ps : List Page) (i : Nat) (h : i < ps.length) :
    flattenPages ps =
      flattenPages (ps.take i) ++ ((ps.get? i).bind Page.editor).getD [] ++
        flattenPages (ps.drop (i + 1)) := by
  induction ps generalizing i with
  | nil => simp at h
  | cons p ps ih =>
    cases i with
    | zero => simp [flattenPages]
    | succ m =>
      have hm : m < ps.length := by simpa using Nat.lt_of_succ_lt_succ h
      simp only [List.take_succ_cons, List.get?_cons_succ, List.drop_succ_cons,
        flattenPages, List.append_assoc]
      rw [ih m hm]
      simp [List.append_assoc]

theorem flattenPages_modify (ps : List Page) (i : Nat) (bs : List Block)
    (h : i < ps.length) :
    flattenPages (modifyEditorAt ps i bs) =
      flattenPages (ps.take i) ++ bs ++ flattenPages (ps.drop (i + 1)) := by
  have hlen : i < (modifyEditorAt ps i bs).length := by
    rw [modifyEditorAt_length]; exact h
  rw [flattenPages_decomp _ i hlen, get?_modifyEditorAt_self ps i bs h,
    take_modifyEditorAt, drop_modifyEditorAt_gt ps i (i + 1) bs (Nat.lt_succ_self i)]
  rfl

end DocEditor

namespace DocEditor

theorem findSplitAux_spec (bs : List Block) :
    ∀ (cur cap : ℤ) (k : Nat), findSplitAux cap cur bs = some k →
      k < bs.length ∧ cur + sumHeights (bs.take (k + 1)) > cap ∧
        ∀ j, j < k → cur + sumHeights (bs.take (j + 1)) ≤ cap := by
  induction bs with
  | nil => intro cur cap k h; simp [findSplitAux] at h
  | cons b bs ih =>
    intro cur cap k h
    by_cases hb : cur + b.height > cap
    · rw [findSplitAux, if_pos hb] at h
      injection h with h0
      subst h0
      refine ⟨Nat.succ_pos _, by simpa [sumHeights] using hb, ?_⟩
      intro j hj; exact absurd hj (Nat.not_lt_zero j)
    · rw [findSplitAux, if_neg hb] at h
      cases haux : findSplitAux cap (cur + b.height) bs with
      | none => rw [haux] at h; simp at h
      | some k0 =>
        rw [haux, Option.map_some'] at h
        injection h with hk
        subst hk
        obtain ⟨hlen, hgt, hle⟩ := ih (cur + b.height) cap k0 haux
        refine ⟨Nat.succ_lt_succ hlen, by simpa [sumHeights, add_assoc] using hgt, ?_⟩
        intro j hj
        cases j with
        | zero => simpa [sumHeights] using le_of_not_lt hb
        | succ m =>
          have hm := hle m (Nat.lt_of_succ_lt_succ hj)
          simpa [sumHeights, add_assoc] using hm

/-- Claim C1: the overflow splitter accumulates block heights in order and
splits at the first block whose inclusion makes the running total exceed
capacity; blocks before the split index are retained, blocks from the split
index on form the overflow, in original order. -/
theorem extractOverflowContent_split_spec (blocks : List Block) (cap : ℤ)
    (k : Nat) (h : findSplitIndex blocks cap = some k) :
    k < blocks.length ∧
    sumHeights (blocks.take (k + 1)) > cap ∧
    (∀ j, j < k → sumHeights (blocks.take (j + 1)) ≤ cap) ∧
    (extractOverflowContent blocks cap).2 = blocks.drop k ∧
    serializeBlocks (extractOverflowContent blocks cap).2 =
      serializeBlocks (blocks.drop k) ∧
    (htmlAllWhitespace (blocks.take k) = false →
      (extractOverflowContent blocks cap).1 = blocks.take k) := by
  obtain ⟨hlen, hgt, hle⟩ := findSplitAux_spec blocks 0 cap k h
  have hdrop : (extractOverflowContent blocks cap).2 = blocks.drop k := by
    simp [extractOverflowContent, h]
  refine ⟨hlen, by simpa using hgt, fun j hj => by simpa using hle j hj,
    hdrop, by rw [hdrop], ?_⟩
  intro hws
  simp [extractOverflowContent, h, hws]

/-- Witness for C1 at the spec scenario: capacity 1000, block heights
[300, 400, 500]; the split index is 2, the first two blocks are retained and
exactly the third becomes overflow. -/
theorem extractOverflowContent_split_spec_witness :
    2 < ([blkA, blkB, blkC] : List Block).length ∧
    sumHeights (([blkA, blkB, blkC] : List Block).take (2 + 1)) > 1000 ∧
    (∀ j, j < 2 → sumHeights (([blkA, blkB, blkC] : List Block).take (j + 1)) ≤ 1000) ∧
    (extractOverflowContent [blkA, blkB, blkC] 1000).2 = ([blkA, blkB, blkC] : List Block).drop 2 ∧
    serializeBlocks (extractOverflowContent [blkA, blkB, blkC] 1000).2 =
      serializeBlocks (([blkA, blkB, blkC] : List Block).drop 2) ∧
    (htmlAllWhitespace (([blkA, blkB, blkC] : List Block).take 2) = false →
      (extractOverflowContent [blkA, blkB, blkC] 1000).1 = ([blkA, blkB, blkC] : List Block).take 2) :=
  extractOverflowContent_split_spec [blkA, blkB, blkC] 1000 2 (by decide)

/-- Claim C3: when the very first block alone already exceeds capacity the
split index is 0; the splitter does not fragment the block — the whole block
sequence (first block included, intact) becomes the overflow and the region
is left holding only the placeholder break marker. -/
theorem oversized_first_block_moves_whole (b : Block) (rest : List Block)
    (cap : ℤ) (h : b.height > cap) :
    extractOverflowContent (b :: rest) cap = ([placeholderBlock], b :: rest) := by
  have hsplit : findSplitIndex (b :: rest) cap = some 0 := by
    rw [findSplitIndex, findSplitAux, if_pos (by simpa using h)]
  simp [extractOverflowContent, hsplit, htmlAllWhitespace]

/-- Witness for C3: a single 1500-high image against capacity 1000 moves
whole into the overflow; the region keeps only the placeholder. -/
theorem oversized_first_block_moves_whole_witness :
    extractOverflowContent [blkBig] 1000 = ([placeholderBlock], [blkBig]) :=
  oversized_first_block_moves_whole blkBig [] 1000 (by decide)

end DocEditor

namespace DocEditor

theorem updateUIFn_map_editor (st : EditorState) :
    (updateUIFn st).pages.map Page.editor = st.pages.map Page.editor := by
  simp [updateUIFn, renumberFrom_map_editor]

theorem updateUIFn_flatten (st : EditorState) :
    flattenPages (updateUIFn st).pages = flattenPages st.pages := by
  simp [updateUIFn, flattenPages_renumber]

theorem updateUIFn_modified (st : EditorState) :
    (updateUIFn st).documentModified = st.documentModified := rfl

theorem updateUIFn_getRegion (st : EditorState) (i : Nat) :
    getRegion (updateUIFn st) i = getRegion st i := by
  unfold updateUIFn getRegion
  exact renumberFrom_get?_editor 1 st.pages i

theorem updateUIFn_renumbered (st : EditorState) :
    pagesRenumbered (updateUIFn st) := by
  constructor
  · simp [updateUIFn, renumberFrom_map_label, renumberFrom_length]
  · simp [updateUIFn]

/-- Claim C5: a region whose full content height is within capacity plus the
5-unit tolerance buffer is left structurally unchanged by the overflow check,
whatever the number of blocks and the available recursion fuel: no region
content changes, no page is created, nothing moves.  A region in `Stable`
state (it fits) is exactly such a region, so re-running the check on it is a
structural no-op. -/
theorem stable_region_check_no_change (fuel : Nat) (st : EditorState) (i : Nat)
    (blocks : List Block) (hreg : getRegion st i = some blocks)
    (hfit : sumHeights blocks ≤ st.pageHeight + 5) :
    (checkPageOverflow fuel st i).pages.map Page.editor = st.pages.map Page.editor := by
  cases fuel with
  | zero => rfl
  | succ n =>
    simp only [checkPageOverflow, hreg]
    by_cases hz : sumHeights blocks = 0 ∧ textAllWhitespace blocks = false
    · rw [if_pos hz]
    · rw [if_neg hz, if_neg (not_lt.mpr hfit)]
      exact updateUIFn_map_editor st

/-- Witness for C5: a 300-high single-block page against capacity 1000 is
untouched by the check. -/
theorem stable_region_check_no_change_witness :
    (checkPageOverflow 1 (onePageDoc [blkA]) 0).pages.map Page.editor =
      (onePageDoc [blkA]).pages.map Page.editor :=
  stable_region_check_no_change 1 (onePageDoc [blkA]) 0 [blkA] (by decide) (by decide)

/-- Claim C9: measurement anomalies are recovered locally and never throw.
A non-positive computed usable height makes `calculatePageDimensions` fall
back to the fixed default 1120 and emit the diagnostic (the returned flag);
a zero measured content height on a region with non-blank text makes
`checkPageOverflow` re-arm the debounce slot with a 100ms retry for the same
region and change nothing else — in particular no split happens on
not-yet-rendered content.  Both modelled functions are total. -/
theorem measurement_anomaly_recovery :
    (∀ (st : EditorState) (g : PageGeometry), computeUsableHeight g ≤ 0 →
      calculatePageDimensions st (some g) = ({ st with pageHeight := 1120 }, true)) ∧
    (∀ (fuel : Nat) (st : EditorState) (i : Nat) (blocks : List Block),
      getRegion st i = some blocks → sumHeights blocks = 0 →
      textAllWhitespace blocks = false →
      checkPageOverflow (fuel + 1) st i = { st with typingTimer := some (i, 100) }) := by
  constructor
  · intro st g h
    simp [calculatePageDimensions, if_pos h]
  · intro fuel st i blocks hreg hz ht
    simp only [checkPageOverflow, hreg]
    exact if_pos ⟨hz, ht⟩

/-- Witness for C9: a degenerate geometry falls back to 1120 with the
diagnostic, and a zero-height but non-empty region only re-arms the timer. -/
theorem measurement_anomaly_recovery_witness :
    calculatePageDimensions (onePageDoc []) (some ⟨100, 50, 50, 10, 10, 0, 0, 0, 0⟩) =
      ({ onePageDoc [] with pageHeight := 1120 }, true) ∧
    checkPageOverflow 1 (onePageDoc [blkZero]) 0 =
      { onePageDoc [blkZero] with typingTimer := some (0, 100) } :=
  ⟨measurement_anomaly_recovery.1 (onePageDoc []) ⟨100, 50, 50, 10, 10, 0, 0, 0, 0⟩ (by decide),
   measurement_anomaly_recovery.2 0 (onePageDoc [blkZero]) 0 [blkZero] (by decide) (by decide) (by decide)⟩

theorem runSchedule_append (tr : List Nat) (r : Nat) :
    runSchedule (tr ++ [r]) = scheduleCheck (runSchedule tr) r := by
  simp [runSchedule, List.foldl_append]

theorem runSchedule_nextId (tr : List Nat) : (runSchedule tr).nextId = tr.length := by
  induction tr using List.reverseRecOn with
  | nil => rfl
  | append_singleton xs x ih =>
    rw [runSchedule_append]
    simp [scheduleCheck, ih]

theorem runSchedule_pending (tr : List Nat) (h : tr ≠ []) :
    ∃ r, (runSchedule tr).pending = some (tr.length - 1, r) := by
  induction tr using List.reverseRecOn with
  | nil => exact absurd rfl h
  | append_singleton xs x ih =>
    rw [runSchedule_append]
    refine ⟨x, ?_⟩
    simp [scheduleCheck, runSchedule_nextId]

/-- Claim C10: only the most recently scheduled debounced check can ever
fire (the single `typingTimer` slot is cleared before every `setTimeout`),
so a check for region `r` that is superseded by a later check for `r` never
runs, and scheduling always replaces whatever task was pending. -/
theorem debounce_latest_only :
    (∀ (tr : List Nat) (id : Nat), mayFire (runSchedule tr) id = true →
      id + 1 = tr.length) ∧
    (∀ (tr : List Nat) (i j r : Nat), i < j → tr.get? i = some r →
      tr.get? j = some r → mayFire (runSchedule tr) i = false) ∧
    (∀ (s : SchedState) (r : Nat), (scheduleCheck s r).pending = some (s.nextId, r)) := by
  have hlatest : ∀ (tr : List Nat) (id : Nat), mayFire (runSchedule tr) id = true →
      id + 1 = tr.length := by
    intro tr id h
    by_cases htr : tr = []
    · subst htr; simp [mayFire, runSchedule] at h
    · obtain ⟨r, hp⟩ := runSchedule_pending tr htr
      rw [mayFire, hp] at h
      have hid : tr.length - 1 = id := by simpa using h
      have hpos : 0 < tr.length := List.length_pos.mpr htr
      omega
  refine ⟨hlatest, ?_, fun s r => rfl⟩
  intro tr i j r hij hi hj
  cases hmf : mayFire (runSchedule tr) i with
  | false => rfl
  | true =>
    have h1 := hlatest tr i hmf
    have hjlen : j < tr.length := List.get?_eq_some.mp hj |>.1
    omega

/-- Witness for C10: with two checks scheduled for region 0, the first
(superseded) one can no longer fire. -/
theorem debounce_latest_only_witness :
    mayFire (runSchedule [0, 0]) 0 = false ∧
    (scheduleCheck ⟨some (0, 0), 1⟩ 0).pending = some (1, 0) :=
  ⟨debounce_latest_only.2.1 [0, 0] 0 1 0 (by decide) (by decide) (by decide),
   debounce_latest_only.2.2 ⟨some (0, 0), 1⟩ 0⟩

end DocEditor

namespace DocEditor

theorem getRegion_lt (st : EditorState) (i : Nat) (bs : List Block)
    (h : getRegion st i = some bs) : i < st.pages.length := by
  unfold getRegion at h
  cases hg : st.pages.get? i with
  | none => rw [hg] at h; simp at h
  | some p => exact (List.get?_eq_some.mp hg).1

theorem length_eraseIdx_of_lt (ps : List Page) (i : Nat) (h : i < ps.length) :
    (ps.eraseIdx i).length = ps.length - 1 := by
  induction ps generalizing i with
  | nil => simp at h
  | cons p ps ih =>
    cases i with
    | zero => simp [List.eraseIdx]
    | succ m =>
      have hm : m < ps.length := by simpa using Nat.lt_of_succ_lt_succ h
      have hp : 0 < ps.length := Nat.lt_of_le_of_lt (Nat.zero_le m) hm
      simp only [List.eraseIdx, List.length_cons]
      rw [ih m hm]
      omega

/-- Claim C6: Backspace in a region whose content is effectively empty (only
placeholder break markers and blank entities remain) removes the page when it
is not the first one: the page vanishes from the structure, focus moves to
the previous page region, pages are renumbered `1..N-1`, `totalPages` is
refreshed and `currentPage` clamped.  On the first page the handler changes
nothing — the first page is never removed this way. -/
theorem backspace_empty_page_removal (st : EditorState) (i : Nat)
    (blocks prevBlocks : List Block) (hreg : getRegion st i = some blocks)
    (hempty : blocks.all blockBackspaceEmpty = true)
    (hprev : getRegion st (i - 1) = some prevBlocks) :
    (0 < i →
      (backspaceKeydown st i).pages.map Page.editor =
        (st.pages.eraseIdx i).map Page.editor ∧
      (backspaceKeydown st i).selectedEditor = some (i - 1) ∧
      (backspaceKeydown st i).pages.map Page.label =
        List.range' 1 (st.pages.length - 1) ∧
      (backspaceKeydown st i).totalPages = st.pages.length - 1 ∧
      (backspaceKeydown st i).currentPage = min i (st.pages.length - 1)) ∧
    (i = 0 → backspaceKeydown st i = st) := by
  have hlt := getRegion_lt st i blocks hreg
  have herase := length_eraseIdx_of_lt st.pages i hlt
  unfold getRegion at hprev
  constructor
  · intro hi
    simp only [backspaceKeydown, hreg, hempty, if_pos hi, if_true, hprev]
    refine ⟨?_, rfl, ?_, ?_, ?_⟩
    · simp [updateUIFn, renumberFrom_map_editor]
    · simp [updateUIFn, renumberFrom_map_label, renumberFrom_length, herase]
    · simp [updateUIFn, renumberFrom_length, herase]
    · simp [updateUIFn, renumberFrom_length, herase]
  · intro hi
    subst hi
    simp only [backspaceKeydown, hreg, hempty, if_true]
    rw [if_neg (lt_irrefl 0)]

/-- Witness for C6 at the spec scenario shape: a two-page document whose
second page holds only the placeholder; Backspace removes page 2, focuses
page 1, renumbers to a single page. -/
theorem backspace_empty_page_removal_witness :
    ((0 < 1 →
      (backspaceKeydown (twoPageDoc [blkA] [placeholderBlock]) 1).pages.map Page.editor =
        ((twoPageDoc [blkA] [placeholderBlock]).pages.eraseIdx 1).map Page.editor ∧
      (backspaceKeydown (twoPageDoc [blkA] [placeholderBlock]) 1).selectedEditor = some (1 - 1) ∧
      (backspaceKeydown (twoPageDoc [blkA] [placeholderBlock]) 1).pages.map Page.label =
        List.range' 1 ((twoPageDoc [blkA] [placeholderBlock]).pages.length - 1) ∧
      (backspaceKeydown (twoPageDoc [blkA] [placeholderBlock]) 1).totalPages =
        (twoPageDoc [blkA] [placeholderBlock]).pages.length - 1 ∧
      (backspaceKeydown (twoPageDoc [blkA] [placeholderBlock]) 1).currentPage =
        min 1 ((twoPageDoc [blkA] [placeholderBlock]).pages.length - 1)) ∧
    (1 = 0 → backspaceKeydown (twoPageDoc [blkA] [placeholderBlock]) 1 =
      twoPageDoc [blkA] [placeholderBlock])) :=
  backspace_empty_page_removal (twoPageDoc [blkA] [placeholderBlock]) 1
    [placeholderBlock] [blkA] (by decide) (by decide) (by decide)

end DocEditor

namespace DocEditor

theorem stripBreaks_append (xs ys : List Block) :
    stripBreaks (xs ++ ys) = stripBreaks xs ++ stripBreaks ys := by
  simp [stripBreaks, List.filter_append]

theorem stripBreaks_placeholder_cons (l : List Block) :
    stripBreaks (placeholderBlock :: l) = stripBreaks l := by
  have h : (placeholderBlock.markup != "<br>") = false := by decide
  simp [stripBreaks, List.filter_cons, h]

theorem htmlAllWhitespace_append (xs ys : List Block) :
    htmlAllWhitespace (xs ++ ys) = (htmlAllWhitespace xs && htmlAllWhitespace ys) := by
  simp [htmlAllWhitespace, List.all_append]

theorem eq_nil_of_htmlAllWhitespace (l : List Block)
    (hvis : ∀ b ∈ l, strWhitespaceOnly b.markup = false)
    (hws : htmlAllWhitespace l = true) : l = [] := by
  cases l with
  | nil => rfl
  | cons b bs =>
    have hb := hvis b (List.mem_cons_self b bs)
    have hb2 : strWhitespaceOnly b.markup = true :=
      List.all_eq_true.mp hws b (List.mem_cons_self b bs)
    rw [hb] at hb2
    exact absurd hb2 (by simp)

theorem extract_visible_retained (blocks : List Block) (cap : ℤ)
    (hvis : ∀ b ∈ blocks, strWhitespaceOnly b.markup = false) :
    ∀ b ∈ (extractOverflowContent blocks cap).1, strWhitespaceOnly b.markup = false := by
  cases hs : findSplitIndex blocks cap with
  | none => simpa [extractOverflowContent, hs] using hvis
  | some k =>
    by_cases hws : htmlAllWhitespace (blocks.take k) = true
    · intro b hb
      simp only [extractOverflowContent, hs, if_pos hws] at hb
      rcases List.mem_singleton.mp hb with rfl
      decide
    · intro b hb
      simp only [extractOverflowContent, hs, if_neg hws] at hb
      exact hvis b (List.take_subset k blocks hb)

theorem extract_visible_overflow (blocks : List Block) (cap : ℤ)
    (hvis : ∀ b ∈ blocks, strWhitespaceOnly b.markup = false) :
    ∀ b ∈ (extractOverflowContent blocks cap).2, strWhitespaceOnly b.markup = false := by
  cases hs : findSplitIndex blocks cap with
  | none => simp [extractOverflowContent, hs]
  | some k =>
    intro b hb
    simp only [extractOverflowContent, hs] at hb
    exact hvis b (List.drop_subset k blocks hb)

theorem extractOverflowContent_conserve (blocks : List Block) (cap : ℤ)
    (hvis : ∀ b ∈ blocks, strWhitespaceOnly b.markup = false) :
    (extractOverflowContent blocks cap).1 ++ (extractOverflowContent blocks cap).2 = blocks ∨
    ((extractOverflowContent blocks cap).1 = [placeholderBlock] ∧
      (extractOverflowContent blocks cap).2 = blocks) := by
  cases hs : findSplitIndex blocks cap with
  | none => left; simp [extractOverflowContent, hs]
  | some k =>
    by_cases hws : htmlAllWhitespace (blocks.take k) = true
    · right
      have htake : blocks.take k = [] :=
        eq_nil_of_htmlAllWhitespace _ (fun b hb => hvis b (List.take_subset k blocks hb)) hws
      have hdrop : blocks.drop k = blocks := by
        rcases List.take_eq_nil_iff.mp htake with h | h
        · subst h; simp
        · subst h; simp
      constructor
      · simp [extractOverflowContent, hs, hws]
      · simp [extractOverflowContent, hs, hdrop]
    · left
      have hws' : htmlAllWhitespace (blocks.take k) = false := by
        cases h : htmlAllWhitespace (blocks.take k)
        · rfl
        · exact absurd h hws
      simp [extractOverflowContent, hs, hws', List.take_append_drop]

theorem extract_strip (blocks : List Block) (cap : ℤ)
    (hvis : ∀ b ∈ blocks, strWhitespaceOnly b.markup = false) :
    stripBreaks ((extractOverflowContent blocks cap).1 ++ (extractOverflowContent blocks cap).2) =
      stripBreaks blocks := by
  rcases extractOverflowContent_conserve blocks cap hvis with h | ⟨h1, h2⟩
  · rw [h]
  · rw [h1, h2]
    exact stripBreaks_placeholder_cons blocks

theorem WFdoc_region_visible (st : EditorState) (i : Nat) (blocks : List Block)
    (h : WFdoc st) (hreg : getRegion st i = some blocks) :
    ∀ b ∈ blocks, strWhitespaceOnly b.markup = false := by
  unfold getRegion at hreg
  cases hg : st.pages.get? i with
  | none => rw [hg] at hreg; simp at hreg
  | some p =>
    rw [hg] at hreg
    simp only [Option.some_bind] at hreg
    have hp := h p (List.get?_mem hg)
    have := hp.2
    rw [hreg] at this
    simpa using this

theorem WFpages_modify (ps : List Page) (i : Nat) (bs : List Block)
    (h : WFpages ps) (hvis : ∀ b ∈ bs, strWhitespaceOnly b.markup = false) :
    WFpages (modifyEditorAt ps i bs) := by
  induction ps generalizing i with
  | nil => simpa [modifyEditorAt] using h
  | cons p ps ih =>
    cases i with
    | zero =>
      intro q hq
      rcases List.mem_cons.mp hq with hq | hq
      · subst hq; exact ⟨rfl, by simpa using hvis⟩
      · exact h q (List.mem_cons_of_mem _ hq)
    | succ m =>
      intro q hq
      rcases List.mem_cons.mp hq with hq | hq
      · subst hq; exact h q (List.mem_cons_self _ _)
      · exact ih m (fun r hr => h r (List.mem_cons_of_mem _ hr)) q hq

theorem WFpages_of_map_editor_eq (ps qs : List Page)
    (hmap : qs.map Page.editor = ps.map Page.editor) (h : WFpages ps) :
    WFpages qs := by
  intro q hq
  have hqm : q.editor ∈ qs.map Page.editor := List.mem_map_of_mem _ hq
  rw [hmap] at hqm
  rcases List.mem_map.mp hqm with ⟨p, hp, hpe⟩
  have hwp := h p hp
  exact ⟨by rw [← hpe]; exact hwp.1, by rw [← hpe]; exact hwp.2⟩

theorem WFdoc_updateUIFn (st : EditorState) (h : WFdoc st) :
    WFdoc (updateUIFn st) :=
  WFpages_of_map_editor_eq st.pages (updateUIFn st).pages (updateUIFn_map_editor st) h

theorem WFdoc_setRegion (st : EditorState) (i : Nat) (bs : List Block)
    (h : WFdoc st) (hvis : ∀ b ∈ bs, strWhitespaceOnly b.markup = false) :
    WFdoc (setRegion st i bs) :=
  WFpages_modify st.pages i bs h hvis

theorem WFpages_append_clear (ps : List Page) (first : Page)
    (h : WFpages ps) (hf : first.editor.isSome = true) :
    WFpages (ps ++ [clearRegions first]) := by
  intro q hq
  rcases List.mem_append.mp hq with hq | hq
  · exact h q hq
  · rcases List.mem_singleton.mp hq with rfl
    cases he : first.editor with
    | none => rw [he] at hf; simp at hf
    | some bs => exact ⟨by simp [clearRegions, he], by simp [clearRegions, he]⟩

theorem setRegion_pages_length (st : EditorState) (i : Nat) (bs : List Block) :
    (setRegion st i bs).pages.length = st.pages.length :=
  modifyEditorAt_length st.pages i bs

theorem getRegion_setRegion_self (st : EditorState) (i : Nat) (bs : List Block)
    (h : i < st.pages.length) : getRegion (setRegion st i bs) i = some bs :=
  get?_modifyEditorAt_self st.pages i bs h

theorem getRegion_setRegion_ne (st : EditorState) (i j : Nat) (bs : List Block)
    (h : j ≠ i) : getRegion (setRegion st i bs) j = getRegion st j := by
  unfold getRegion setRegion
  rw [get?_modifyEditorAt_ne st.pages i j bs h]

end DocEditor

namespace DocEditor

theorem addPage_pages (st : EditorState) (first : Page) (rest : List Page)
    (hps : st.pages = first :: rest) :
    (addPage st).pages = renumberFrom 1 ((first :: rest) ++ [clearRegions first]) := by
  simp only [addPage, hps]
  split <;> simp [updateUIFn]

theorem addPage_modified (st : EditorState) :
    (addPage st).documentModified = st.documentModified := by
  simp only [addPage]
  split
  · rfl
  · split <;> rfl

theorem addPage_length_of_cons (st : EditorState) (first : Page) (rest : List Page)
    (hps : st.pages = first :: rest) :
    (addPage st).pages.length = st.pages.length + 1 := by
  rw [addPage_pages st first rest hps, renumberFrom_length, hps]
  simp

theorem clearRegions_flatten (p : Page) : (clearRegions p).editor.getD [] = [] := by
  cases he : p.editor <;> simp [clearRegions, he]

theorem flatten_addPage (st : EditorState) (first : Page) (rest : List Page)
    (hps : st.pages = first :: rest) :
    flattenPages (addPage st).pages = flattenPages st.pages := by
  rw [addPage_pages st first rest hps, flattenPages_renumber, flattenPages_append, hps]
  simp [flattenPages, clearRegions_flatten]

theorem WFdoc_addPage (st : EditorState) (h : WFdoc st) : WFdoc (addPage st) := by
  cases hps : st.pages with
  | nil =>
    have : addPage st = st := by simp [addPage, hps]
    rw [this]; exact h
  | cons first rest =>
    have hWFps : WFpages (first :: rest) := by rw [← hps]; exact h
    have hf : first.editor.isSome = true :=
      (hWFps first (List.mem_cons_self _ _)).1
    have hwf2 : WFpages ((first :: rest) ++ [clearRegions first]) :=
      WFpages_append_clear (first :: rest) first hWFps hf
    unfold WFdoc
    rw [addPage_pages st first rest hps]
    exact WFpages_of_map_editor_eq _ _ (renumberFrom_map_editor 1 _) hwf2

theorem getRegion_addPage_new (st : EditorState) (first : Page) (rest : List Page)
    (hps : st.pages = first :: rest) (hf : first.editor.isSome = true) :
    getRegion (addPage st) st.pages.length = some [] := by
  unfold getRegion
  rw [addPage_pages st first rest hps, renumberFrom_get?_editor, hps,
    List.get?_concat_length]
  cases he : first.editor with
  | none => rw [he] at hf; simp at hf
  | some bs => simp [clearRegions, he]

theorem modify_renumber_comm (ps : List Page) (n i : Nat) (bs : List Block) :
    modifyEditorAt (renumberFrom n ps) i bs = renumberFrom n (modifyEditorAt ps i bs) := by
  induction ps generalizing n i with
  | nil => rfl
  | cons p ps ih =>
    cases i with
    | zero => rfl
    | succ m => simp [renumberFrom, modifyEditorAt, ih]

theorem install_into_appended (qs : List Page) (q : Page) (bs : List Block) :
    flattenPages (modifyEditorAt (qs ++ [q]) qs.length bs) = flattenPages qs ++ bs := by
  induction qs with
  | nil => simp [modifyEditorAt, flattenPages]
  | cons p ps ih => simp [modifyEditorAt, flattenPages, ih, List.append_assoc]

theorem flatten_take_succ_modify (ps : List Page) (i : Nat) (bs : List Block)
    (h : i < ps.length) :
    flattenPages ((modifyEditorAt ps i bs).take (i + 1)) =
      flattenPages (ps.take i) ++ bs := by
  induction ps generalizing i with
  | nil => simp at h
  | cons p ps ih =>
    cases i with
    | zero => simp [modifyEditorAt, flattenPages]
    | succ m =>
      have hm : m < ps.length := by simpa using Nat.lt_of_succ_lt_succ h
      simp only [modifyEditorAt, List.take_succ_cons, flattenPages, List.append_assoc]
      rw [ih m hm]

end DocEditor

namespace DocEditor

theorem checkPageOverflow_wf_strip (fuel : Nat) :
    ∀ (st : EditorState) (i : Nat), WFdoc st →
      WFdoc (checkPageOverflow fuel st i) ∧
      stripBreaks (flattenPages (checkPageOverflow fuel st i).pages) =
        stripBreaks (flattenPages st.pages) := by
  induction fuel with
  | zero => intro st i h; exact ⟨h, rfl⟩
  | succ n ih =>
    intro st i h
    cases hreg : getRegion st i with
    | none => simp only [checkPageOverflow, hreg]; exact ⟨h, trivial⟩
    | some blocks =>
      have hvisB := WFdoc_region_visible st i blocks h hreg
      have hi : i < st.pages.length := getRegion_lt st i blocks hreg
      simp only [checkPageOverflow, hreg]
      by_cases hz : sumHeights blocks = 0 ∧ textAllWhitespace blocks = false
      · rw [if_pos hz]; exact ⟨h, rfl⟩
      · rw [if_neg hz]
        by_cases hov : sumHeights blocks > st.pageHeight + 5
        · rw [if_pos hov]
          set res := extractOverflowContent blocks st.pageHeight with hres
          set st1 := setRegion st i res.1 with hst1
          have hvis1 : ∀ b ∈ res.1, strWhitespaceOnly b.markup = false :=
            extract_visible_retained blocks st.pageHeight hvisB
          have hvis2 : ∀ b ∈ res.2, strWhitespaceOnly b.markup = false :=
            extract_visible_overflow blocks st.pageHeight hvisB
          have hWF1 : WFdoc st1 := WFdoc_setRegion st i res.1 h hvis1
          have hlen1 : st1.pages.length = st.pages.length :=
            setRegion_pages_length st i res.1
          have hregblocks : ((st.pages.get? i).bind Page.editor).getD [] = blocks := by
            rw [show (st.pages.get? i).bind Page.editor = getRegion st i from rfl, hreg]
            rfl
          have hflat0 : flattenPages st.pages =
              flattenPages (st.pages.take i) ++ blocks ++
                flattenPages (st.pages.drop (i + 1)) := by
            rw [flattenPages_decomp st.pages i hi, hregblocks]
          have hflat1 : flattenPages st1.pages =
              flattenPages (st.pages.take i) ++ res.1 ++
                flattenPages (st.pages.drop (i + 1)) :=
            flattenPages_modify st.pages i res.1 hi
          have hstripres : stripBreaks res.1 ++ stripBreaks res.2 = stripBreaks blocks := by
            rw [← stripBreaks_append]
            exact extract_strip blocks st.pageHeight hvisB
          by_cases hov2 : htmlAllWhitespace res.2 = false
          · rw [if_pos hov2]
            by_cases hlast : i = st1.pages.length - 1
            · rw [if_pos hlast]
              have hip1 : i + 1 = st.pages.length := by
                rw [hlen1] at hlast; omega
              have hdropnil : st.pages.drop (i + 1) = [] := by
                rw [hip1]; exact List.drop_length st.pages
              rw [hdropnil] at hflat0 hflat1
              simp only [flattenPages, List.append_nil] at hflat0 hflat1
              obtain ⟨first1, rest1, hst1p⟩ : ∃ f r, st1.pages = f :: r := by
                cases hq : st1.pages with
                | nil => rw [hq] at hlen1; simp at hlen1; omega
                | cons f r => exact ⟨f, r, rfl⟩
              have hf1 : first1.editor.isSome = true := by
                refine (hWF1 first1 ?_).1
                rw [hst1p]; exact List.mem_cons_self _ _
              have hnew : getRegion (addPage st1) st1.pages.length = some [] :=
                getRegion_addPage_new st1 first1 rest1 hst1p hf1
              have hlen2 : (addPage st1).pages.length = st1.pages.length + 1 :=
                addPage_length_of_cons st1 first1 rest1 hst1p
              have hidx : (addPage st1).pages.length - 1 = st1.pages.length := by omega
              rw [hidx]
              simp only [hnew]
              set st3 := setRegion (addPage st1) st1.pages.length res.2 with hst3
              have hWF2 : WFdoc (addPage st1) := WFdoc_addPage st1 hWF1
              have hWF3 : WFdoc st3 :=
                WFdoc_setRegion (addPage st1) st1.pages.length res.2 hWF2 hvis2
              have hflat3 : flattenPages st3.pages = flattenPages st1.pages ++ res.2 := by
                show flattenPages
                    (modifyEditorAt (addPage st1).pages st1.pages.length res.2) = _
                rw [addPage_pages st1 first1 rest1 hst1p, modify_renumber_comm,
                  flattenPages_renumber, hst1p]
                exact install_into_appended (first1 :: rest1) (clearRegions first1) res.2
              obtain ⟨ihWF, ihstrip⟩ := ih st3 st1.pages.length hWF3
              refine ⟨WFdoc_updateUIFn _ ihWF, ?_⟩
              rw [updateUIFn_flatten, ihstrip, hflat3, hflat1, hflat0,
                stripBreaks_append, stripBreaks_append, stripBreaks_append,
                List.append_assoc, hstripres]
            · rw [if_neg hlast]
              have hne' : i ≠ st.pages.length - 1 := by
                rw [hlen1] at hlast; exact hlast
              have hi1 : i + 1 < st.pages.length := by omega
              obtain ⟨p, hg2⟩ : ∃ p, st.pages.get? (i + 1) = some p := by
                cases hg : st.pages.get? (i + 1) with
                | none =>
                  have := List.get?_eq_none.mp hg
                  omega
                | some p => exact ⟨p, rfl⟩
              have hwp := h p (List.get?_mem hg2)
              obtain ⟨nr, he⟩ : ∃ nr, p.editor = some nr := by
                cases he : p.editor with
                | none =>
                  have h1 := hwp.1
                  rw [he] at h1
                  simp at h1
                | some nr => exact ⟨nr, rfl⟩
              have hnext1 : getRegion st1 (i + 1) = some nr := by
                rw [getRegion_setRegion_ne st i (i + 1) res.1 (Nat.succ_ne_self i)]
                unfold getRegion
                rw [hg2]
                simp [he]
              simp only [hnext1]
              set st3 := setRegion st1 (i + 1) (res.2 ++ nr) with hst3
              have hvisnr : ∀ b ∈ nr, strWhitespaceOnly b.markup = false := by
                have h2 := hwp.2
                rw [he] at h2
                simpa using h2
              have hvis3 : ∀ b ∈ res.2 ++ nr, strWhitespaceOnly b.markup = false := by
                intro b hb
                rcases List.mem_append.mp hb with hb | hb
                · exact hvis2 b hb
                · exact hvisnr b hb
              have hWF3 : WFdoc st3 := WFdoc_setRegion st1 (i + 1) _ hWF1 hvis3
              have hi1' : i + 1 < st1.pages.length := by rw [hlen1]; omega
              have hflat3 : flattenPages st3.pages =
                  flattenPages (st.pages.take i) ++ res.1 ++ (res.2 ++ nr) ++
                    flattenPages (st.pages.drop (i + 2)) := by
                show flattenPages
                    (modifyEditorAt st1.pages (i + 1) (res.2 ++ nr)) = _
                rw [flattenPages_modify st1.pages (i + 1) _ hi1']
                have ht : flattenPages (st1.pages.take (i + 1)) =
                    flattenPages (st.pages.take i) ++ res.1 :=
                  flatten_take_succ_modify st.pages i res.1 hi
                have hd : st1.pages.drop (i + 2) = st.pages.drop (i + 2) :=
                  drop_modifyEditorAt_gt st.pages i (i + 2) res.1 (by omega)
                rw [ht, hd]
              have hdropnr : flattenPages (st.pages.drop (i + 1)) =
                  nr ++ flattenPages (st.pages.drop (i + 2)) := by
                rw [drop_eq_cons_of_get? st.pages (i + 1) p hg2]
                simp [flattenPages, he]
              obtain ⟨ihWF, ihstrip⟩ := ih st3 (i + 1) hWF3
              refine ⟨WFdoc_updateUIFn _ ihWF, ?_⟩
              rw [updateUIFn_flatten, ihstrip, hflat3, hflat0, hdropnr]
              simp only [stripBreaks_append, List.append_assoc]
              rw [← List.append_assoc (stripBreaks res.1) (stripBreaks res.2), hstripres]
          · rw [if_neg hov2]
            have hov2' : htmlAllWhitespace res.2 = true := by
              cases hx : htmlAllWhitespace res.2 with
              | false => exact absurd hx hov2
              | true => rfl
            cases hs : findSplitIndex blocks st.pageHeight with
            | none =>
              have hres1 : res.1 = blocks := by
                rw [hres]; simp [extractOverflowContent, hs]
              refine ⟨WFdoc_updateUIFn _ hWF1, ?_⟩
              rw [updateUIFn_flatten, hflat1, hres1, ← hflat0]
            | some k =>
              exfalso
              have hklen : k < blocks.length :=
                (findSplitAux_spec blocks 0 st.pageHeight k hs).1
              have hres2 : res.2 = blocks.drop k := by
                rw [hres]; simp [extractOverflowContent, hs]
              have hdropnil : blocks.drop k = [] := by
                refine eq_nil_of_htmlAllWhitespace _
                  (fun b hb => hvisB b (List.drop_subset k blocks hb)) ?_
                rw [← hres2]; exact hov2'
              have := List.drop_eq_nil_iff_le.mp hdropnil
              omega
        · rw [if_neg hov]
          exact ⟨WFdoc_updateUIFn st h, by rw [updateUIFn_flatten]⟩

end DocEditor

namespace DocEditor

/-- Claim C2: conservation.  For a single splitter call, retained content
concatenated with overflow content equals the original block sequence up to
insertion of the placeholder break marker on a region that became empty; and
for any overflow check (with its cascading recursive redistributions) and any
finite sequence of such checks on a well-formed document, the concatenation
of all regions in page order is unchanged up to placeholder break markers —
no block is duplicated or dropped. -/
theorem pagination_conserves_content :
    (∀ (blocks : List Block) (cap : ℤ),
      (∀ b ∈ blocks, strWhitespaceOnly b.markup = false) →
      stripBreaks ((extractOverflowContent blocks cap).1 ++
          (extractOverflowContent blocks cap).2) =
        stripBreaks blocks) ∧
    (∀ (fuel : Nat) (st : EditorState) (i : Nat), WFdoc st →
      stripBreaks (flattenPages (checkPageOverflow fuel st i).pages) =
        stripBreaks (flattenPages st.pages)) ∧
    (∀ (ops : List (Nat × Nat)) (st : EditorState), WFdoc st →
      stripBreaks (flattenPages
          (ops.foldl (fun s op => checkPageOverflow op.1 s op.2) st).pages) =
        stripBreaks (flattenPages st.pages)) := by
  refine ⟨fun blocks cap hvis => extract_strip blocks cap hvis,
    fun fuel st i h => (checkPageOverflow_wf_strip fuel st i h).2, ?_⟩
  intro ops
  induction ops with
  | nil => intro st h; rfl
  | cons op ops ih =>
    intro st h
    obtain ⟨hWF, hstrip⟩ := checkPageOverflow_wf_strip op.1 st op.2 h
    simp only [List.foldl_cons]
    rw [ih _ hWF, hstrip]

/-- Witness for C2: a single-page overflow of [600, 600] against capacity
1000 pushes the second block to a fresh page; the flattened content is
conserved, and so is the single splitter call. -/
theorem pagination_conserves_content_witness :
    stripBreaks ((extractOverflowContent [blkX, blkY] 1000).1 ++
        (extractOverflowContent [blkX, blkY] 1000).2) =
      stripBreaks [blkX, blkY] ∧
    stripBreaks (flattenPages (checkPageOverflow 2 (onePageDoc [blkX, blkY]) 0).pages) =
      stripBreaks (flattenPages (onePageDoc [blkX, blkY]).pages) :=
  ⟨pagination_conserves_content.1 [blkX, blkY] 1000 (by decide),
   pagination_conserves_content.2.1 2 (onePageDoc [blkX, blkY]) 0
     (by unfold WFdoc WFpages; decide)⟩

end DocEditor

namespace DocEditor

/-- Claim C4: dispatch of a non-empty overflow.  On the last page a new page
is created (clone of the template, one page longer), the overflow is
installed into its region, and that region is re-checked recursively; on a
non-last page the overflow is prepended to the next page region (overflow
precedes the existing content) and that region is re-checked recursively;
and when the next page region cannot be found, the operation recovers by
creating a new page exactly as in the last-page case instead of failing.
Event wiring of the cloned page is a DOM detail outside the model. -/
theorem overflow_redistribution_branches (fuel : Nat) (st : EditorState)
    (i : Nat) (blocks : List Block) (hreg : getRegion st i = some blocks)
    (hnz : ¬ (sumHeights blocks = 0 ∧ textAllWhitespace blocks = false))
    (hov : sumHeights blocks > st.pageHeight + 5)
    (hvisov : htmlAllWhitespace (extractOverflowContent blocks st.pageHeight).2 = false) :
    (∀ first rest,
      i = st.pages.length - 1 →
      (setRegion st i (extractOverflowContent blocks st.pageHeight).1).pages = first :: rest →
      first.editor.isSome = true →
      checkPageOverflow (fuel + 1) st i =
        updateUIFn (checkPageOverflow fuel
          (setRegion (addPage (setRegion st i (extractOverflowContent blocks st.pageHeight).1))
            st.pages.length (extractOverflowContent blocks st.pageHeight).2)
          st.pages.length) ∧
      (addPage (setRegion st i (extractOverflowContent blocks st.pageHeight).1)).pages.length =
        st.pages.length + 1 ∧
      getRegion (setRegion (addPage (setRegion st i (extractOverflowContent blocks st.pageHeight).1))
          st.pages.length (extractOverflowContent blocks st.pageHeight).2)
        st.pages.length = some (extractOverflowContent blocks st.pageHeight).2) ∧
    (∀ nextBlocks,
      i ≠ st.pages.length - 1 →
      getRegion st (i + 1) = some nextBlocks →
      checkPageOverflow (fuel + 1) st i =
        updateUIFn (checkPageOverflow fuel
          (setRegion (setRegion st i (extractOverflowContent blocks st.pageHeight).1) (i + 1)
            ((extractOverflowContent blocks st.pageHeight).2 ++ nextBlocks)) (i + 1)) ∧
      getRegion (setRegion (setRegion st i (extractOverflowContent blocks st.pageHeight).1) (i + 1)
          ((extractOverflowContent blocks st.pageHeight).2 ++ nextBlocks)) (i + 1) =
        some ((extractOverflowContent blocks st.pageHeight).2 ++ nextBlocks)) ∧
    (∀ first rest,
      i ≠ st.pages.length - 1 →
      getRegion st (i + 1) = none →
      (setRegion st i (extractOverflowContent blocks st.pageHeight).1).pages = first :: rest →
      first.editor.isSome = true →
      checkPageOverflow (fuel + 1) st i =
        updateUIFn (checkPageOverflow fuel
          (setRegion (addPage (setRegion st i (extractOverflowContent blocks st.pageHeight).1))
            st.pages.length (extractOverflowContent blocks st.pageHeight).2)
          st.pages.length)) := by
  have hi : i < st.pages.length := getRegion_lt st i blocks hreg
  set res := extractOverflowContent blocks st.pageHeight with hres
  set st1 := setRegion st i res.1 with hst1def
  have hlen1 : st1.pages.length = st.pages.length := setRegion_pages_length st i res.1
  refine ⟨?_, ?_, ?_⟩
  · intro first rest hlast hst1p hf
    have hnew : getRegion (addPage st1) st1.pages.length = some [] :=
      getRegion_addPage_new st1 first rest hst1p hf
    have hlen2 : (addPage st1).pages.length = st1.pages.length + 1 :=
      addPage_length_of_cons st1 first rest hst1p
    have hidx : (addPage st1).pages.length - 1 = st.pages.length := by omega
    have hnew' : getRegion (addPage st1) st.pages.length = some [] := by
      rw [← hlen1]; exact hnew
    refine ⟨?_, by omega, ?_⟩
    · simp only [checkPageOverflow, hreg]
      rw [if_neg hnz, if_pos hov, if_pos hvisov,
        if_pos (show i = st1.pages.length - 1 by rw [hlen1]; exact hlast), hidx]
      simp only [hnew']
    · exact getRegion_setRegion_self (addPage st1) st.pages.length res.2 (by omega)
  · intro nextBlocks hne hnext
    have hnext1 : getRegion st1 (i + 1) = some nextBlocks := by
      rw [getRegion_setRegion_ne st i (i + 1) res.1 (Nat.succ_ne_self i)]
      exact hnext
    refine ⟨?_, ?_⟩
    · simp only [checkPageOverflow, hreg]
      rw [if_neg hnz, if_pos hov, if_pos hvisov,
        if_neg (show ¬ i = st1.pages.length - 1 by rw [hlen1]; exact hne)]
      simp only [hnext1]
    · exact getRegion_setRegion_self st1 (i + 1) _ (by rw [hlen1]; omega)
  · intro first rest hne hnone hst1p hf
    have hnone1 : getRegion st1 (i + 1) = none := by
      rw [getRegion_setRegion_ne st i (i + 1) res.1 (Nat.succ_ne_self i)]
      exact hnone
    have hnew : getRegion (addPage st1) st1.pages.length = some [] :=
      getRegion_addPage_new st1 first rest hst1p hf
    have hlen2 : (addPage st1).pages.length = st1.pages.length + 1 :=
      addPage_length_of_cons st1 first rest hst1p
    have hidx : (addPage st1).pages.length - 1 = st.pages.length := by omega
    have hnew' : getRegion (addPage st1) st.pages.length = some [] := by
      rw [← hlen1]; exact hnew
    simp only [checkPageOverflow, hreg]
    rw [if_neg hnz, if_pos hov, if_pos hvisov,
      if_neg (show ¬ i = st1.pages.length - 1 by rw [hlen1]; exact hne)]
    simp only [hnone1]
    rw [hidx]
    simp only [hnew']

/-- Witness for C4 at the prepend branch: page 1 of 2 overflows with
[600, 600]; the overflowing block is prepended before the existing content of
page 2, which is then re-checked. -/
theorem overflow_redistribution_branches_witness :
    (checkPageOverflow 2 (twoPageDoc [blkX, blkY] [blkC]) 0 =
      updateUIFn (checkPageOverflow 1
        (setRegion (setRegion (twoPageDoc [blkX, blkY] [blkC]) 0
            (extractOverflowContent [blkX, blkY] (twoPageDoc [blkX, blkY] [blkC]).pageHeight).1)
          (0 + 1)
          ((extractOverflowContent [blkX, blkY] (twoPageDoc [blkX, blkY] [blkC]).pageHeight).2 ++ [blkC]))
        (0 + 1)) ∧
    getRegion (setRegion (setRegion (twoPageDoc [blkX, blkY] [blkC]) 0
          (extractOverflowContent [blkX, blkY] (twoPageDoc [blkX, blkY] [blkC]).pageHeight).1)
        (0 + 1)
        ((extractOverflowContent [blkX, blkY] (twoPageDoc [blkX, blkY] [blkC]).pageHeight).2 ++ [blkC]))
      (0 + 1) =
      some ((extractOverflowContent [blkX, blkY] (twoPageDoc [blkX, blkY] [blkC]).pageHeight).2 ++ [blkC])) :=
  (overflow_redistribution_branches 1 (twoPageDoc [blkX, blkY] [blkC]) 0 [blkX, blkY]
    (by decide) (by decide) (by decide) (by decide)).2.1 [blkC] (by decide) (by decide)

end DocEditor

namespace DocEditor

theorem checkPageOverflow_modified (fuel : Nat) :
    ∀ (st : EditorState) (i : Nat),
      (checkPageOverflow fuel st i).documentModified = st.documentModified := by
  induction fuel with
  | zero => intro st i; rfl
  | succ n ih =>
    intro st i
    cases hreg : getRegion st i with
    | none => simp only [checkPageOverflow, hreg]
    | some blocks =>
      simp only [checkPageOverflow, hreg]
      repeat' split
      all_goals first
        | rfl
        | (rw [updateUIFn_modified]
           try rw [ih]
           simp [setRegion, addPage_modified])

theorem checkPageOverflow_pages_cases (fuel : Nat) (st : EditorState) (i : Nat) :
    (checkPageOverflow fuel st i).pages = st.pages ∨
      pagesRenumbered (checkPageOverflow fuel st i) := by
  cases fuel with
  | zero => left; rfl
  | succ n =>
    cases hreg : getRegion st i with
    | none => left; simp only [checkPageOverflow, hreg]
    | some blocks =>
      simp only [checkPageOverflow, hreg]
      repeat' split
      all_goals first
        | (left; rfl)
        | (right; exact updateUIFn_renumbered _)

theorem addPage_cases (st : EditorState) :
    (addPage st).pages = st.pages ∨ pagesRenumbered (addPage st) := by
  cases hps : st.pages with
  | nil => left; simp [addPage, hps]
  | cons f r =>
    right
    simp only [addPage, hps]
    exact updateUIFn_renumbered _

theorem clamp_renumbered (s : EditorState) :
    pagesRenumbered
      { updateUIFn s with
          totalPages := (updateUIFn s).pages.length,
          currentPage := min (updateUIFn s).currentPage (updateUIFn s).pages.length } ∧
    ({ updateUIFn s with
          totalPages := (updateUIFn s).pages.length,
          currentPage := min (updateUIFn s).currentPage (updateUIFn s).pages.length } :
        EditorState).currentPage ≤
      ({ updateUIFn s with
          totalPages := (updateUIFn s).pages.length,
          currentPage := min (updateUIFn s).currentPage (updateUIFn s).pages.length } :
        EditorState).totalPages := by
  refine ⟨⟨?_, rfl⟩, ?_⟩
  · show (updateUIFn s).pages.map Page.label = List.range' 1 (updateUIFn s).pages.length
    simp [updateUIFn, renumberFrom_map_label, renumberFrom_length]
  · show min (updateUIFn s).currentPage (updateUIFn s).pages.length ≤
      (updateUIFn s).pages.length
    exact Nat.min_le_right _ _

theorem backspaceKeydown_modified (st : EditorState) (i : Nat) :
    (backspaceKeydown st i).documentModified = st.documentModified := by
  cases hreg : getRegion st i with
  | none => simp only [backspaceKeydown, hreg]
  | some blocks =>
    simp only [backspaceKeydown, hreg]
    repeat' split
    all_goals rfl

theorem backspaceKeydown_cases (st : EditorState) (i : Nat) :
    (backspaceKeydown st i).pages = st.pages ∨
      (pagesRenumbered (backspaceKeydown st i) ∧
        (backspaceKeydown st i).currentPage ≤ (backspaceKeydown st i).totalPages) := by
  cases hreg : getRegion st i with
  | none => left; simp only [backspaceKeydown, hreg]
  | some blocks =>
    simp only [backspaceKeydown, hreg]
    by_cases hemp : blocks.all blockBackspaceEmpty = true
    · rw [if_pos hemp]
      by_cases hi : 0 < i
      · rw [if_pos hi]
        right
        split
        · exact clamp_renumbered _
        · exact clamp_renumbered _
      · rw [if_neg hi]; left; rfl
    · rw [if_neg hemp]; left; rfl

/-- Amended C7: after every structural operation the page labels are
renumbered to a contiguous `1..N` matching structural order and `totalPages`
is refreshed (or the operation left the page list untouched); the empty-page
removal also clamps `currentPage` to the page count.  However, none of the
structural operations themselves set `documentModified`: the overflow check
with all its redistributions, `addPage` and the empty-page Backspace removal
all leave the flag exactly as it was — it is set only by the editing input
paths (`handleEditorInput`, `execCmd`). -/
theorem structural_ops_renumber_preserve_modified :
    (∀ (fuel : Nat) (st : EditorState) (i : Nat),
      (checkPageOverflow fuel st i).documentModified = st.documentModified ∧
      ((checkPageOverflow fuel st i).pages = st.pages ∨
        pagesRenumbered (checkPageOverflow fuel st i))) ∧
    (∀ st : EditorState,
      (addPage st).documentModified = st.documentModified ∧
      ((addPage st).pages = st.pages ∨ pagesRenumbered (addPage st))) ∧
    (∀ (st : EditorState) (i : Nat),
      (backspaceKeydown st i).documentModified = st.documentModified ∧
      ((backspaceKeydown st i).pages = st.pages ∨
        (pagesRenumbered (backspaceKeydown st i) ∧
          (backspaceKeydown st i).currentPage ≤ (backspaceKeydown st i).totalPages))) ∧
    (∀ (st : EditorState) (i : Nat),
      (handleEditorInput st i).documentModified = true) :=
  ⟨fun fuel st i => ⟨checkPageOverflow_modified fuel st i,
      checkPageOverflow_pages_cases fuel st i⟩,
   fun st => ⟨addPage_modified st, addPage_cases st⟩,
   fun st i => ⟨backspaceKeydown_modified st i, backspaceKeydown_cases st i⟩,
   fun _ _ => rfl⟩

/-- Counterexample to C7 as stated: on an unmodified one-page document whose
region holds two 600-high blocks, the overflow check redistributes content
(region contents change, a page is added — a content-affecting structural
mutation), yet `documentModified` stays `false`; the explicit add-page
operation (a structural mutation, which the spec says sets the flag) also
leaves it `false`. -/
theorem structural_change_modified_counterexample :
    (checkPageOverflow 2 (onePageDoc [blkX, blkY]) 0).pages.map Page.editor ≠
      (onePageDoc [blkX, blkY]).pages.map Page.editor ∧
    (checkPageOverflow 2 (onePageDoc [blkX, blkY]) 0).pages.length = 2 ∧
    (checkPageOverflow 2 (onePageDoc [blkX, blkY]) 0).documentModified = false ∧
    (addPage (onePageDoc [blkX, blkY])).pages.length = 2 ∧
    (addPage (onePageDoc [blkX, blkY])).documentModified = false := by
  decide

end DocEditor

namespace DocEditor

/-- Counterexample to C8 as stated: `resetDocument` clears the first page
region to the empty list with no placeholder break marker, and `addPage`
creates its new page region equally empty — both leave a region
simultaneously empty and missing the placeholder. -/
theorem reset_leaves_empty_region_counterexample :
    getRegion (resetDocument (twoPageDoc [blkA] [blkB])) 0 = some [] ∧
    ¬ placeholderBlock ∈ ([] : List Block) ∧
    getRegion (addPage (onePageDoc [blkA])) 1 = some [] := by
  decide

/-- Amended C8: the overflow splitter never leaves a region empty without the
placeholder (whenever it removes nodes, the remaining region either still has
visible markup or is exactly the placeholder), and redistribution only
installs non-blank content (a non-blank overflow stays non-blank after
prepending); but `resetDocument` and `addPage` clear regions to emptiness
with no placeholder — the invariant as stated does not hold for reset and
page creation. -/
theorem placeholder_invariant_amended :
    (∀ (blocks : List Block) (cap : ℤ) (k : Nat),
      findSplitIndex blocks cap = some k →
      (extractOverflowContent blocks cap).1 = [placeholderBlock] ∨
      htmlAllWhitespace (extractOverflowContent blocks cap).1 = false) ∧
    (∀ ov nr : List Block, htmlAllWhitespace ov = false →
      htmlAllWhitespace (ov ++ nr) = false) ∧
    (∀ (st : EditorState) (first : Page) (rest : List Page),
      st.pages = first :: rest → first.editor.isSome = true →
      getRegion (resetDocument st) 0 = some []) ∧
    (∀ (st : EditorState) (first : Page) (rest : List Page),
      st.pages = first :: rest → first.editor.isSome = true →
      getRegion (addPage st) st.pages.length = some []) := by
  refine ⟨?_, ?_, ?_, ?_⟩
  · intro blocks cap k hs
    by_cases hws : htmlAllWhitespace (blocks.take k) = true
    · left; simp [extractOverflowContent, hs, hws]
    · right
      have hws' : htmlAllWhitespace (blocks.take k) = false := by
        cases hx : htmlAllWhitespace (blocks.take k) with
        | false => rfl
        | true => exact absurd hx hws
      simp [extractOverflowContent, hs, hws']
  · intro ov nr hov
    rw [htmlAllWhitespace_append, hov]
    rfl
  · intro st first rest hps hf
    cases he : first.editor with
    | none => rw [he] at hf; simp at hf
    | some bs =>
      simp only [resetDocument, hps]
      split
      · unfold getRegion
        simp [updateUIFn, renumberFrom, clearRegions, he]
      · unfold getRegion
        simp [updateUIFn, renumberFrom, clearRegions, he]
  · intro st first rest hps hf
    exact getRegion_addPage_new st first rest hps hf

/-- Witness for the amended C8: the oversized-image split leaves exactly the
placeholder; non-blank overflow stays non-blank when prepended; reset and
add-page leave a blank region. -/
theorem placeholder_invariant_amended_witness :
    ((extractOverflowContent [blkBig] 1000).1 = [placeholderBlock] ∨
      htmlAllWhitespace (extractOverflowContent [blkBig] 1000).1 = false) ∧
    htmlAllWhitespace ([blkX] ++ [blkC]) = false ∧
    getRegion (resetDocument (twoPageDoc [blkA] [blkB])) 0 = some [] ∧
    getRegion (addPage (onePageDoc [blkA])) (onePageDoc [blkA]).pages.length = some [] :=
  ⟨placeholder_invariant_amended.1 [blkBig] 1000 0 (by decide),
   placeholder_invariant_amended.2.1 [blkX] [blkC] (by decide),
   placeholder_invariant_amended.2.2.1 (twoPageDoc [blkA] [blkB]) ⟨some [blkA], 1⟩
     [⟨some [blkB], 2⟩] rfl (by decide),
   placeholder_invariant_amended.2.2.2 (onePageDoc [blkA]) ⟨some [blkA], 1⟩ [] rfl (by decide)⟩

end DocEditor
